import Mathlib

/-!
Verification of the `saw` log-processing tool (Rust) against its
natural-language specification, via a shallow embedding of the relevant
source functions in Lean.

Conventions of the embedding:
* `serde_json::Value` becomes the inductive `JValue`; a JSON number is
  represented by its canonical decimal text (`serde_json::Number::to_string`),
  since the claims only ever observe the rendered text of numbers.
* A `serde_json::Map` (insertion ordered) becomes `JMap`, an association list.
* Timestamps (`datetime::LocalDateTime`) become `Nat`; the claims only use
  their total order.
* Compiled regular expressions (`regex::Regex`) become their `is_match`
  function `String → Bool` (the claims about the filter engine are about the
  combinator structure around the regex, not regex internals); where a claim
  needs a concrete regex the concrete matcher is spelled out.
* Rust `panic!`/`expect` in parsing code becomes `Except`; `eprintln!`
  diagnostics become an accumulated list carried in the state.
-/

namespace Saw

/-- `serde_json::Value`.  A number carries its canonical decimal text. -/
inductive JValue where
  | str (s : String)
  | num (s : String)
  | bool (b : Bool)
  | null
  | arr (xs : List JValue)
  | obj (fields : List (String × JValue))

/-- `serde_json::Map<String, Value>`: an insertion-ordered mapping. -/
abbrev JMap := List (String × JValue)

/-- `Map::get` — look a key up (keys are unique in a serde map; first hit). -/
def jget : JMap → String → Option JValue
  | [], _ => none
  | (k, v) :: rest, key => if k = key then some v else jget rest key

/-- `Value::as_str` — `Some` exactly on JSON strings. -/
def JValue.as_str : JValue → Option String
  | .str s => some s
  | _ => none

/-!
## `src/utils.rs` — `ExtraIter::join`

The source (utils.rs lines 32–49):
```
fn join<Mapper>(mut self, deliminator: &str, mapper: Mapper) -> String {
  let mut result = String::new();
  if let Some(first) = self.next() {
    result.push_str(&mapper(first));
  } else {
    return result;
  }
  for next in self.next() {
    result.push_str(deliminator);
    result.push_str(&mapper(next));
  }
  return result;
}
```
`self.next()` in the `for` loop evaluates once to an `Option<Item>`, and a
`for` over an `Option` iterates at most once — so only the first two items
of the iterator ever reach the output.  The embedding reproduces exactly
that.
-/

/-- `ExtraIter::join` (utils.rs 32–49), faithfully including the
`for next in self.next()` behaviour: at most one element after the first. -/
def joinMapped {α : Type} (delim : String) (mapper : α → String) (xs : List α) : String :=
  match xs with
  | [] => ""
  | first :: rest =>
    match rest with
    | [] => mapper first
    | next :: _ => mapper first ++ delim ++ mapper next

/-!
## `src/pretty.rs` — `PrettyDescriptor::pretty_value` (lines 311–326)

Array and object cases delegate to `ExtraIter::join` with `", "`.
The mutual functions below are the result of inlining `joinMapped`
(so that Lean sees the structural recursion); `pretty_value_arr_eq_join`
and `pretty_value_obj_eq_join` prove the two inlinings correct.
-/

mutual

/-- `PrettyDescriptor::pretty_value` (pretty.rs 311–326). -/
def pretty_value : JValue → String
  | .str s => s
  | .num n => n
  | .null => ""
  | .bool b => if b then "true" else "false"
  | .arr xs => prettyArr xs
  | .obj fs => prettyObj fs

/-- `arr.iter().join(", ", pretty_value)` with `joinMapped` inlined. -/
def prettyArr : List JValue → String
  | [] => ""
  | x :: rest =>
    match rest with
    | [] => pretty_value x
    | y :: _ => pretty_value x ++ ", " ++ pretty_value y

/-- `obj.iter().join(", ", fmt)` with `joinMapped` inlined. -/
def prettyObj : List (String × JValue) → String
  | [] => ""
  | (k, v) :: rest =>
    match rest with
    | [] => k ++ ": " ++ pretty_value v
    | (k2, v2) :: _ =>
      (k ++ ": " ++ pretty_value v) ++ ", " ++ (k2 ++ ": " ++ pretty_value v2)

end

theorem pretty_value_arr_eq_join (xs : List JValue) :
    pretty_value (.arr xs) = joinMapped ", " pretty_value xs := by
  cases xs with
  | nil => rfl
  | cons x rest => cases rest <;> rfl

theorem pretty_value_obj_eq_join (fs : List (String × JValue)) :
    pretty_value (.obj fs) =
      joinMapped ", " (fun kv => kv.1 ++ ": " ++ pretty_value kv.2) fs := by
  cases fs with
  | nil => rfl
  | cons kv rest =>
    cases kv
    cases rest with
    | nil => rfl
    | cons kv2 rest2 => cases kv2; rfl

/-!
## `src/filter.rs` — `FilterSet`
-/

/-- `Filter` (filter.rs 10–14).  `pattern` is the compiled regex, embedded as
its `is_match` function. -/
structure Filter where
  key : String
  inverse : Bool
  pattern : String → Bool

/-- `FilterSet` (filter.rs 5–7). -/
structure FilterSet where
  sets : List Filter

/-- `FilterSet::matches` (filter.rs 22–38): a `fold` over the clauses starting
from `true`; once the accumulator is `false` it stays `false`; a clause holds
when the field exists, is a string, and `is_match` XOR `inverse` is true. -/
def FilterSet.matches (fs : FilterSet) (line : JMap) : Bool :=
  fs.sets.foldl
    (fun sum next =>
      if sum then
        match jget line next.key with
        | some value =>
          match value.as_str with
          | some base => (next.pattern base).xor next.inverse
          | none => false
        | none => false
      else false)
    true

/-- The per-clause predicate of `FilterSet::matches`, factored out for the
statement of the AND-decomposition. -/
def clauseHolds (line : JMap) (next : Filter) : Bool :=
  match jget line next.key with
  | some value =>
    match value.as_str with
    | some base => (next.pattern base).xor next.inverse
    | none => false
  | none => false

theorem foldl_false_absorb {α : Type} (g : Bool → α → Bool)
    (hg : ∀ x, g false x = false) : ∀ l : List α, l.foldl g false = false
  | [] => rfl
  | x :: rest => by rw [List.foldl_cons, hg, foldl_false_absorb g hg rest]

theorem foldl_if_all {α : Type} (p : α → Bool) :
    ∀ l : List α,
      l.foldl (fun sum x => if sum then p x else false) true = l.all p := by
  intro l
  induction l with
  | nil => rfl
  | cons x rest ih =>
    rw [List.foldl_cons, List.all_cons]
    show List.foldl _ (p x) rest = _
    cases hp : p x with
    | true => rw [Bool.true_and]; exact ih
    | false => rw [Bool.false_and]; exact foldl_false_absorb _ (fun _ => rfl) rest

/-- `matches` is the AND over all clauses of `clauseHolds`. -/
theorem matches_eq_all (fs : FilterSet) (line : JMap) :
    fs.matches line = fs.sets.all (clauseHolds line) := by
  show fs.sets.foldl (fun sum next => if sum then clauseHolds line next else false) true = _
  exact foldl_if_all (clauseHolds line) fs.sets

/-- Substring search: the `is_match` of the regex `DEBUG` (no anchors, so a
substring match). -/
def containsStr (pat s : String) : Bool := decide (pat.data <:+: s.data)

/-- The compiled form of the filter argument `%level!=DEBUG`:
key `level`, negation on, regex `DEBUG`. -/
def filterLevelNotDebug : FilterSet :=
  ⟨[⟨"level", true, containsStr "DEBUG"⟩]⟩

/-!
## `src/chunk.rs` — `ChunkedWriter`

The embedding keeps the rollover-relevant state (`chunk_info`, `chunk_index`,
`written`); the wrapped byte sink (`inner`) and file creation in `next_chunk`
are I/O and do not influence the claims about rollover arithmetic.
-/

/-- `ChunkUnit` (chunk.rs 14–18). -/
inductive ChunkUnit where
  | bytes
  | lines
deriving DecidableEq

/-- `ChunkInfo` (chunk.rs 8–12). -/
structure ChunkInfo where
  value : Nat
  unit : ChunkUnit
deriving DecidableEq

/-- Rollover state of `ChunkedWriter` (chunk.rs 93–100). -/
structure ChunkedWriter where
  chunk_info : ChunkInfo
  chunk_index : Nat
  written : Nat
deriving DecidableEq

/-- `ChunkedWriter::next_chunk` (chunk.rs 120–137): uses the current index in
the new file's name and increments it. -/
def ChunkedWriter.next_chunk (w : ChunkedWriter) : ChunkedWriter :=
  { w with chunk_index := w.chunk_index + 1 }

/-- `ChunkedWriter::new` (chunk.rs 104–118): starts at index 0, written 0,
then immediately calls `next_chunk` once. -/
def ChunkedWriter.new (info : ChunkInfo) : ChunkedWriter :=
  ChunkedWriter.next_chunk { chunk_info := info, chunk_index := 0, written := 0 }

/-- `Write::write for ChunkedWriter` (chunk.rs 142–151): forwards `n` bytes to
the inner sink and, only under the bytes unit, accumulates the count. -/
def ChunkedWriter.write (w : ChunkedWriter) (n : Nat) : ChunkedWriter :=
  match w.chunk_info.unit with
  | .bytes => { w with written := w.written + n }
  | .lines => w

/-- `LogWriter::end_line for ChunkedWriter` (chunk.rs 166–177): writes the
newline byte through `write`, counts a line under the lines unit, then rolls
over when the count reached the threshold. -/
def ChunkedWriter.end_line (w : ChunkedWriter) : ChunkedWriter :=
  let w1 := w.write 1
  let w2 :=
    match w1.chunk_info.unit with
    | .lines => { w1 with written := w1.written + 1 }
    | .bytes => w1
  if w2.chunk_info.value ≤ w2.written then
    { w2.next_chunk with written := 0 }
  else w2

/-- One record through the sink: its payload bytes, then `end_line` (this is
what `do_pretty` in main.rs 278–294 does per record). -/
def ChunkedWriter.writeRecord (w : ChunkedWriter) (payload : Nat) : ChunkedWriter :=
  (w.write payload).end_line

/-- A sequence of records. -/
def ChunkedWriter.writeRecords (w : ChunkedWriter) (payloads : List Nat) : ChunkedWriter :=
  payloads.foldl ChunkedWriter.writeRecord w

/-- A sequence of raw writes. -/
def ChunkedWriter.writeAll (w : ChunkedWriter) (bufs : List Nat) : ChunkedWriter :=
  bufs.foldl ChunkedWriter.write w

theorem write_lines (w : ChunkedWriter) (n : Nat) (h : w.chunk_info.unit = .lines) :
    w.write n = w := by
  simp [ChunkedWriter.write, h]

theorem write_bytes (w : ChunkedWriter) (n : Nat) (h : w.chunk_info.unit = .bytes) :
    w.write n = { w with written := w.written + n } := by
  simp [ChunkedWriter.write, h]

theorem end_line_eq (w : ChunkedWriter) :
    w.end_line =
      if w.chunk_info.value ≤ w.written + 1 then
        { w with chunk_index := w.chunk_index + 1, written := 0 }
      else { w with written := w.written + 1 } := by
  cases hu : w.chunk_info.unit <;>
    simp [ChunkedWriter.end_line, ChunkedWriter.write, ChunkedWriter.next_chunk, hu]

theorem writeRecord_lines (w : ChunkedWriter) (p : Nat)
    (h : w.chunk_info.unit = .lines) :
    w.writeRecord p =
      if w.chunk_info.value ≤ w.written + 1 then
        { w with chunk_index := w.chunk_index + 1, written := 0 }
      else { w with written := w.written + 1 } := by
  rw [ChunkedWriter.writeRecord, write_lines w p h, end_line_eq]

theorem writeRecords_lines_stay (n : Nat) :
    ∀ (ps : List Nat) (w : ChunkedWriter),
      w.chunk_info.unit = .lines → w.chunk_info.value = n →
      w.written + ps.length < n →
      w.writeRecords ps = { w with written := w.written + ps.length } := by
  intro ps
  induction ps with
  | nil => intro w _ _ _; simp [ChunkedWriter.writeRecords]
  | cons p rest ih =>
    intro w hu hv hlt
    have hnoroll : ¬ w.chunk_info.value ≤ w.written + 1 := by
      rw [hv]; simp only [List.length_cons] at hlt; omega
    have hstep : w.writeRecord p = { w with written := w.written + 1 } := by
      rw [writeRecord_lines w p hu, if_neg hnoroll]
    show List.foldl _ (w.writeRecord p) rest = _
    rw [hstep]
    have := ih { w with written := w.written + 1 } hu hv
      (by
        simp only [List.length_cons] at hlt
        show w.written + 1 + rest.length < n
        omega)
    rw [show List.foldl ChunkedWriter.writeRecord { w with written := w.written + 1 } rest
          = ChunkedWriter.writeRecords { w with written := w.written + 1 } rest from rfl, this]
    simp only [List.length_cons]
    congr 1
    omega

theorem writeRecords_lines_roll (n : Nat) :
    ∀ (ps : List Nat) (w : ChunkedWriter),
      w.chunk_info.unit = .lines → w.chunk_info.value = n →
      w.written < n → w.written + ps.length = n →
      w.writeRecords ps =
        { w with chunk_index := w.chunk_index + 1, written := 0 } := by
  intro ps
  induction ps with
  | nil =>
    intro w _ _ hlt heq
    simp only [List.length_nil, Nat.add_zero] at heq
    omega
  | cons p rest ih =>
    intro w hu hv hlt heq
    simp only [List.length_cons] at heq
    cases rest with
    | nil =>
      have hroll : w.chunk_info.value ≤ w.written + 1 := by
        rw [hv]; simp only [List.length_nil] at heq; omega
      show List.foldl ChunkedWriter.writeRecord (w.writeRecord p) [] = _
      rw [writeRecord_lines w p hu, if_pos hroll]
      rfl
    | cons q rest' =>
      have hnoroll : ¬ w.chunk_info.value ≤ w.written + 1 := by
        rw [hv]; simp only [List.length_cons] at heq; omega
      have hstep : w.writeRecord p = { w with written := w.written + 1 } := by
        rw [writeRecord_lines w p hu, if_neg hnoroll]
      show List.foldl _ (w.writeRecord p) (q :: rest') = _
      rw [hstep]
      exact ih { w with written := w.written + 1 } hu hv
        (by
          simp only [List.length_cons] at heq
          show w.written + 1 < n
          omega)
        (by
          simp only [List.length_cons] at heq ⊢
          show w.written + 1 + (rest'.length + 1) = n
          omega)

theorem writeAll_bytes :
    ∀ (bufs : List Nat) (w : ChunkedWriter), w.chunk_info.unit = .bytes →
      w.writeAll bufs = { w with written := w.written + bufs.sum } := by
  intro bufs
  induction bufs with
  | nil => intro w _; simp [ChunkedWriter.writeAll]
  | cons b rest ih =>
    intro w hu
    show List.foldl _ (w.write b) rest = _
    rw [write_bytes w b hu]
    rw [show List.foldl ChunkedWriter.write { w with written := w.written + b } rest
          = ChunkedWriter.writeAll { w with written := w.written + b } rest from rfl,
        ih { w with written := w.written + b } hu]
    simp only [List.sum_cons]
    congr 1
    omega

/-!
## Claim theorems over the components embedded so far
-/

/-- C4.  The claim says scalar rendering of an array of any length emits the
comma-space-joined rendering of all of its elements, and likewise for all
entries of an object.  The code (`ExtraIter::join`, utils.rs 42: the loop
`for next in self.next()` iterates an `Option`, hence at most once) drops
every element after the second.  This theorem evaluates the embedded code at
the failing inputs: a three-element array renders as `a, b` (not `a, b, c`)
and a three-entry object renders only its first two entries. -/
theorem c4_pretty_value_drops_after_second :
    pretty_value (.arr [.str "a", .str "b", .str "c"]) = "a, b"
    ∧ pretty_value (.obj [("k1", .str "v1"), ("k2", .str "v2"), ("k3", .str "v3")])
        = "k1: v1, k2: v2"
    ∧ joinMapped ", " (fun s => s) ["a", "b", "c"] = "a, b"
    ∧ ("a, b" : String) ≠ "a, b, c" := by
  exact ⟨rfl, rfl, rfl, by decide⟩

/-- C6.  `FilterSet::matches(record)` equals the AND over all clauses of
(regex match of the field's string value XOR the clause's negation flag),
where a clause whose field is missing or whose value is not a string is
`false` regardless of negation; and the `%level!=DEBUG` scenario: rejects a
record with level `DEBUG`, accepts one with level `INFO`, rejects one with no
`level` field. -/
theorem c6_matches_and_xor_semantics :
    (∀ (fs : FilterSet) (line : JMap),
      fs.matches line =
        fs.sets.all (fun next =>
          match jget line next.key with
          | some value =>
            match value.as_str with
            | some base => (next.pattern base).xor next.inverse
            | none => false
          | none => false))
    ∧ filterLevelNotDebug.matches [("level", .str "DEBUG")] = false
    ∧ filterLevelNotDebug.matches [("level", .str "INFO")] = true
    ∧ filterLevelNotDebug.matches [("message", .str "x")] = false := by
  refine ⟨fun fs line => matches_eq_all fs line, ?_, ?_, ?_⟩ <;> rfl

/-- C7.  Records-unit policy with threshold `n`: writing exactly `n` records
from a fresh chunk triggers exactly one rollover (so one rollover per `n`
records).  Bytes-unit policy: cumulative written bytes (payload plus the
newline `end_line` writes) reaching the threshold triggers a rollover at that
`end_line`, while a cumulative count one byte short of the threshold does
not. -/
theorem c7_chunk_rollover_thresholds :
    (∀ (n : Nat) (w : ChunkedWriter) (ps : List Nat),
      w.chunk_info.unit = .lines → w.chunk_info.value = n → w.written = 0 →
      0 < n → ps.length = n →
      (w.writeRecords ps).chunk_index = w.chunk_index + 1
      ∧ (w.writeRecords ps).written = 0)
    ∧ (∀ (n : Nat) (w : ChunkedWriter) (bufs : List Nat),
      w.chunk_info.unit = .bytes → w.chunk_info.value = n → w.written = 0 →
      (n ≤ bufs.sum + 1 →
        ((w.writeAll bufs).end_line).chunk_index = w.chunk_index + 1
        ∧ ((w.writeAll bufs).end_line).written = 0)
      ∧ (bufs.sum + 2 = n →
        ((w.writeAll bufs).end_line).chunk_index = w.chunk_index
        ∧ ((w.writeAll bufs).end_line).written = n - 1)) := by
  constructor
  · intro n w ps hu hv hw hn hlen
    have h := writeRecords_lines_roll n ps w hu hv (by omega) (by omega)
    rw [h]
    exact ⟨rfl, rfl⟩
  · intro n w bufs hu hv hw
    have hall : w.writeAll bufs = { w with written := w.written + bufs.sum } :=
      writeAll_bytes bufs w hu
    constructor
    · intro hreach
      rw [hall, end_line_eq]
      rw [if_pos (by show w.chunk_info.value ≤ w.written + bufs.sum + 1; omega)]
      exact ⟨rfl, rfl⟩
    · intro hshort
      rw [hall, end_line_eq]
      rw [if_neg (by show ¬ w.chunk_info.value ≤ w.written + bufs.sum + 1; omega)]
      constructor
      · rfl
      · show w.written + bufs.sum + 1 = n - 1
        omega

/-- Witness for C7 at concrete inputs: a lines-unit writer with threshold 2
rolls over exactly once after 2 records; a bytes-unit writer with threshold 5
rolls on a 4-byte record (4+1 newline = 5) and does not roll on a 3-byte
record (3+1 = 4 = 5-1). -/
theorem c7_chunk_rollover_thresholds_witness :
    ((ChunkedWriter.new ⟨2, .lines⟩).writeRecords [7, 9]).chunk_index
        = (ChunkedWriter.new ⟨2, .lines⟩).chunk_index + 1
    ∧ (((ChunkedWriter.new ⟨5, .bytes⟩).writeAll [4]).end_line).chunk_index
        = (ChunkedWriter.new ⟨5, .bytes⟩).chunk_index + 1
    ∧ (((ChunkedWriter.new ⟨5, .bytes⟩).writeAll [3]).end_line).chunk_index
        = (ChunkedWriter.new ⟨5, .bytes⟩).chunk_index :=
  ⟨(c7_chunk_rollover_thresholds.1 2 (ChunkedWriter.new ⟨2, .lines⟩) [7, 9]
      rfl rfl rfl (by decide) rfl).1,
   ((c7_chunk_rollover_thresholds.2 5 (ChunkedWriter.new ⟨5, .bytes⟩) [4]
      rfl rfl rfl).1 (by decide)).1,
   ((c7_chunk_rollover_thresholds.2 5 (ChunkedWriter.new ⟨5, .bytes⟩) [3]
      rfl rfl rfl).2 (by decide)).1⟩

/-- C9.  Rollover is only ever triggered inside `end_line`, never inside
`write`, for both policy units: `write` leaves the chunk index unchanged (so
no record's bytes are split across chunk files — every byte of a record,
including its newline, is written at the chunk index current at the record's
start); `end_line` bumps the index exactly when the count reached the
threshold; and under a bytes-unit policy `write` keeps accumulating past the
threshold without rolling, so a chunk may exceed the threshold until the next
`end_line`. -/
theorem c9_rollover_only_in_end_line :
    (∀ (w : ChunkedWriter) (n : Nat), (w.write n).chunk_index = w.chunk_index)
    ∧ (∀ w : ChunkedWriter,
        (w.end_line).chunk_index =
          if w.chunk_info.value ≤ w.written + 1 then w.chunk_index + 1
          else w.chunk_index)
    ∧ (∀ (w : ChunkedWriter) (n : Nat), w.chunk_info.unit = .bytes →
        (w.write n).written = w.written + n
        ∧ (w.write n).chunk_index = w.chunk_index) := by
  refine ⟨?_, ?_, ?_⟩
  · intro w n
    cases hu : w.chunk_info.unit <;> simp [ChunkedWriter.write, hu]
  · intro w
    rw [end_line_eq]
    by_cases h : w.chunk_info.value ≤ w.written + 1
    · rw [if_pos h, if_pos h]
    · rw [if_neg h, if_neg h]
  · intro w n hu
    rw [write_bytes w n hu]
    exact ⟨rfl, rfl⟩

/-- Witness for C9: a bytes-unit writer already at its threshold accepts a
further `write` without rolling over, exceeding the threshold. -/
theorem c9_rollover_only_in_end_line_witness :
    ((⟨⟨5, .bytes⟩, 1, 10⟩ : ChunkedWriter).write 3).written = 13
    ∧ ((⟨⟨5, .bytes⟩, 1, 10⟩ : ChunkedWriter).write 3).chunk_index = 1 :=
  c9_rollover_only_in_end_line.2.2 ⟨⟨5, .bytes⟩, 1, 10⟩ 3 rfl

/-!
## `src/pretty.rs` — the pattern lexer's escape handling

`ESCAPE_MAP` (pretty.rs 61–73) and `lex_literal` (pretty.rs 247–265).
The two panics of `lex_literal` become `Except.error`.
-/

/-- The two panic messages of `lex_literal`:
"Pattern cannot end with an unmatched backslash character" and
"Pattern contained unknown and invalid escape sequence". -/
inductive LexErr where
  | unmatchedBackslash
  | unknownEscape (c : Char)
deriving DecidableEq

/-- `ESCAPE_MAP` (pretty.rs 61–73): the full static escape table and its
`get`. -/
def ESCAPE_MAP : Char → Option Char := fun c =>
  match c with
  | 't' => some '\t'
  | 's' => some ' '
  | 'n' => some '\n'
  | 'r' => some '\r'
  | '%' => some '%'
  | '\\' => some '\\'
  | '/' => some '/'
  | '(' => some '('
  | ')' => some ')'
  | _ => none

/-- `PrettyDescriptor::lex_literal` (pretty.rs 247–265): accumulate
characters into `name` until a structural delimiter or the end of input;
on a backslash consume the following character through `ESCAPE_MAP`,
failing on a missing or unrecognized follower. -/
def lex_literal : List Char → String → Except LexErr (String × List Char)
  | [], name => .ok (name, [])
  | '\\' :: rest, name =>
    match rest with
    | [] => .error .unmatchedBackslash
    | follow :: rest2 =>
      match ESCAPE_MAP follow with
      | none => .error (.unknownEscape follow)
      | some found => lex_literal rest2 (name.push found)
  | c :: rest, name =>
    if c = '%' ∨ c = '(' ∨ c = '/' ∨ c = ')' then .ok (name, c :: rest)
    else lex_literal rest (name.push c)

/-- C5.  The claim says the lexer recognizes the escapes for tab, space,
newline, carriage return, percent, backslash and the structural delimiters,
plus one additional escape that terminates the literal emitting nothing
(the program's own help text, args.rs 55, documents that extra escape as
`\v`, and the default pretty pattern, args.rs 171, uses it).  The code has
no such escape: `ESCAPE_MAP` holds exactly the nine listed characters, every
character outside it — `v` included — is a parse error, as is a trailing
bare backslash.  So lexing the default pattern's own `\v` fails. -/
theorem c5_lexer_has_no_terminator_escape :
    ESCAPE_MAP 't' = some '\t' ∧ ESCAPE_MAP 's' = some ' '
    ∧ ESCAPE_MAP 'n' = some '\n' ∧ ESCAPE_MAP 'r' = some '\r'
    ∧ ESCAPE_MAP '%' = some '%' ∧ ESCAPE_MAP '\\' = some '\\'
    ∧ ESCAPE_MAP '/' = some '/' ∧ ESCAPE_MAP '(' = some '('
    ∧ ESCAPE_MAP ')' = some ')'
    ∧ (∀ c : Char, c ∉ ['t', 's', 'n', 'r', '%', '\\', '/', '(', ')'] →
        ESCAPE_MAP c = none)
    ∧ lex_literal ['a', '\\', 'v', 'b'] "" = .error (.unknownEscape 'v')
    ∧ lex_literal ['a', '\\'] "" = .error .unmatchedBackslash := by
  refine ⟨rfl, rfl, rfl, rfl, rfl, rfl, rfl, rfl, rfl, ?_, rfl, rfl⟩
  intro c hc
  unfold ESCAPE_MAP
  split <;> simp_all

/-- Witness for C5's hypothesis-bearing conjunct: `v` is not in the escape
table, so the terminator escape of the claim does not exist. -/
theorem c5_lexer_has_no_terminator_escape_witness :
    ESCAPE_MAP 'v' = none :=
  c5_lexer_has_no_terminator_escape.2.2.2.2.2.2.2.2.2.1 'v' (by decide)

/-!
## `src/main.rs` — `LogFile` (Source Stream), lines 40–168

A raw input line is embedded by its parse outcome: `RawLine.invalid` covers
both malformed JSON and a missing/unparseable `time` field (both error paths
of `do_advance`, main.rs 139–156, behave identically: log file+line, report
failure); `RawLine.valid v t` is a line parsing to the JSON object `v` whose
`time` field parses to `t`.  `eprintln!` diagnostics accumulate in `diags`
as (file, line) pairs.
-/

/-- `FileSource` (main.rs 40–43). -/
structure FileSource where
  file : String
  line : Nat
deriving DecidableEq

/-- `Line` (main.rs 45–49). -/
structure Line where
  value : JMap
  time : Nat
  src : FileSource

/-- Parse outcome of one raw text line. -/
inductive RawLine where
  | invalid
  | valid (value : JMap) (time : Nat)

/-- `LogFile` (main.rs 51–58), with the remaining input lines in place of the
boxed reader and the accumulated `eprintln!` diagnostics alongside. -/
structure LogFile where
  input : List RawLine
  name : String
  line : Nat
  is_completed : Bool
  next : Option Line
  diags : List (String × Nat)

instance : Inhabited LogFile := ⟨⟨[], "", 0, false, none, []⟩⟩

/-- `LogFile::do_advance` (main.rs 124–168): read one line; at EOF flag
completion; on a bad line log file+line and report failure; on a good line
buffer it. -/
def LogFile.do_advance (lf : LogFile) : LogFile × Bool :=
  match lf.input with
  | [] => ({ lf with line := lf.line + 1, is_completed := true }, true)
  | raw :: rest =>
    match raw with
    | .invalid =>
      ({ lf with input := rest, line := lf.line + 1,
                 diags := lf.diags ++ [(lf.name, lf.line)] }, false)
    | .valid v t =>
      ({ lf with input := rest, line := lf.line + 1,
                 next := some ⟨v, t, ⟨lf.name, lf.line⟩⟩ }, true)

/-- The `while !self.do_advance() {}` loop of `advance` (main.rs 117).  Each
failing iteration consumes one input line, so `input.length + 1` rounds of
fuel always suffice; the fuel makes the recursion structural. -/
def LogFile.advanceFuel : Nat → LogFile → LogFile
  | 0, lf => lf
  | fuel + 1, lf =>
    match lf.do_advance with
    | (lf2, true) => lf2
    | (lf2, false) => LogFile.advanceFuel fuel lf2

/-- `LogFile::advance` (main.rs 111–121): no-op on a completed stream, else
loop `do_advance`, then report whether the stream is still live (equivalently
whether a record is now buffered). -/
def LogFile.advance (lf : LogFile) : LogFile × Bool :=
  if lf.is_completed then (lf, false)
  else
    let lf2 := LogFile.advanceFuel (lf.input.length + 1) lf
    (lf2, !lf2.is_completed)

/-- Is this line one that `do_advance` skips? -/
def RawLine.isInvalid : RawLine → Bool
  | .invalid => true
  | .valid _ _ => false

/-- The diagnostics logged for `k` successive skipped lines starting at line
number `start` of file `name`. -/
def skipDiags (name : String) (start : Nat) : Nat → List (String × Nat)
  | 0 => []
  | k + 1 => (name, start) :: skipDiags name (start + 1) k

theorem advance_completed (lf : LogFile) (h : lf.is_completed = true) :
    lf.advance = (lf, false) := by
  simp [LogFile.advance, h]

theorem advanceFuel_step (fuel : Nat) (lf lf2 : LogFile) (b : Bool)
    (h : lf.do_advance = (lf2, b)) :
    LogFile.advanceFuel (fuel + 1) lf =
      if b then lf2 else LogFile.advanceFuel fuel lf2 := by
  rw [LogFile.advanceFuel, h]
  cases b <;> rfl

theorem advanceFuel_eof :
    ∀ (input : List RawLine) (lf : LogFile), lf.input = input →
      input.dropWhile RawLine.isInvalid = [] →
      LogFile.advanceFuel (input.length + 1) lf =
        { lf with input := [], line := lf.line + input.length + 1,
                  is_completed := true,
                  diags := lf.diags ++ skipDiags lf.name lf.line input.length } := by
  intro input
  induction input with
  | nil =>
    intro lf hinp _
    have hda : lf.do_advance = ({ lf with line := lf.line + 1, is_completed := true }, true) := by
      unfold LogFile.do_advance
      rw [hinp]
    show LogFile.advanceFuel (0 + 1) lf = _
    rw [advanceFuel_step 0 lf _ true hda, if_pos rfl]
    rw [show ({ lf with line := lf.line + 1, is_completed := true } : LogFile).input = lf.input from rfl] at hinp
    simp only [List.length_nil, skipDiags, List.append_nil, Nat.add_zero]
    simp only [LogFile.mk.injEq]
    simp [hinp]
  | cons raw rest ih =>
    intro lf hinp hdrop
    cases raw with
    | valid v t => simp [RawLine.isInvalid, List.dropWhile] at hdrop
    | invalid =>
      simp only [RawLine.isInvalid, List.dropWhile] at hdrop
      have hda : lf.do_advance =
          ({ lf with input := rest, line := lf.line + 1,
                     diags := lf.diags ++ [(lf.name, lf.line)] }, false) := by
        unfold LogFile.do_advance
        rw [hinp]
      show LogFile.advanceFuel (rest.length + 1 + 1) lf = _
      rw [advanceFuel_step (rest.length + 1) lf _ false hda, if_neg (by decide)]
      rw [ih { lf with input := rest, line := lf.line + 1,
                       diags := lf.diags ++ [(lf.name, lf.line)] } rfl hdrop]
      simp only [List.length_cons, skipDiags, LogFile.mk.injEq]
      repeat' constructor
      all_goals first
        | rfl
        | omega
        | (rw [List.append_assoc]; rfl)

theorem advanceFuel_valid :
    ∀ (input : List RawLine) (lf : LogFile) (v : JMap) (t : Nat) (rest : List RawLine),
      lf.input = input →
      input.dropWhile RawLine.isInvalid = .valid v t :: rest →
      LogFile.advanceFuel (input.length + 1) lf =
        { lf with input := rest,
                  line := lf.line + (input.takeWhile RawLine.isInvalid).length + 1,
                  next := some ⟨v, t, ⟨lf.name,
                    lf.line + (input.takeWhile RawLine.isInvalid).length⟩⟩,
                  diags := lf.diags ++ skipDiags lf.name lf.line
                    (input.takeWhile RawLine.isInvalid).length } := by
  intro input
  induction input with
  | nil =>
    intro lf v t rest _ hdrop
    simp [List.dropWhile] at hdrop
  | cons raw rest0 ih =>
    intro lf v t rest hinp hdrop
    cases raw with
    | valid v0 t0 =>
      simp only [List.dropWhile, RawLine.isInvalid, List.cons.injEq,
        RawLine.valid.injEq] at hdrop
      obtain ⟨⟨hv, ht⟩, hr⟩ := hdrop
      have hda : lf.do_advance =
          ({ lf with input := rest0, line := lf.line + 1,
                     next := some ⟨v0, t0, ⟨lf.name, lf.line⟩⟩ }, true) := by
        unfold LogFile.do_advance
        rw [hinp]
      show LogFile.advanceFuel (rest0.length + 1 + 1) lf = _
      rw [advanceFuel_step (rest0.length + 1) lf _ true hda, if_pos rfl]
      rw [hv, ht, hr]
      simp only [List.takeWhile, RawLine.isInvalid, skipDiags, List.length_nil,
        List.append_nil, Nat.add_zero, LogFile.mk.injEq]
    | invalid =>
      simp only [List.dropWhile, RawLine.isInvalid] at hdrop
      have hda : lf.do_advance =
          ({ lf with input := rest0, line := lf.line + 1,
                     diags := lf.diags ++ [(lf.name, lf.line)] }, false) := by
        unfold LogFile.do_advance
        rw [hinp]
      show LogFile.advanceFuel (rest0.length + 1 + 1) lf = _
      rw [advanceFuel_step (rest0.length + 1) lf _ false hda, if_neg (by decide)]
      rw [ih { lf with input := rest0, line := lf.line + 1,
                       diags := lf.diags ++ [(lf.name, lf.line)] } v t rest rfl hdrop]
      simp only [List.takeWhile, RawLine.isInvalid, skipDiags, List.length_cons]
      rw [List.append_assoc]
      have harith : ∀ k : Nat, lf.line + 1 + k = lf.line + (k + 1) := fun k => by omega
      simp only [harith]
      rfl

theorem advance_not_completed (lf : LogFile) (hc : lf.is_completed = false) :
    lf.advance = (LogFile.advanceFuel (lf.input.length + 1) lf,
      !(LogFile.advanceFuel (lf.input.length + 1) lf).is_completed) := by
  simp [LogFile.advance, hc]

/-- Full characterization of `advance` (helper; restated as the C8 claim
below). -/
theorem advance_char :
    (∀ lf : LogFile, lf.is_completed = true → lf.advance = (lf, false))
    ∧ (∀ lf : LogFile, lf.is_completed = false → lf.next = none →
        ((lf.advance).2 = ((lf.advance).1.next).isSome
         ∧ (lf.advance).1.diags =
             lf.diags ++ skipDiags lf.name lf.line
               (lf.input.takeWhile RawLine.isInvalid).length
         ∧ (∀ (v : JMap) (t : Nat) (rest : List RawLine),
              lf.input.dropWhile RawLine.isInvalid = .valid v t :: rest →
              (lf.advance).1.next = some ⟨v, t, ⟨lf.name,
                  lf.line + (lf.input.takeWhile RawLine.isInvalid).length⟩⟩
              ∧ (lf.advance).1.input = rest
              ∧ (lf.advance).2 = true)
         ∧ (lf.input.dropWhile RawLine.isInvalid = [] →
              (lf.advance).1.is_completed = true
              ∧ (lf.advance).1.next = none
              ∧ (lf.advance).2 = false))) := by
  constructor
  · exact advance_completed
  · intro lf hc hn
    rw [advance_not_completed lf hc]
    cases hsplit : lf.input.dropWhile RawLine.isInvalid with
    | nil =>
      have htw : lf.input.takeWhile RawLine.isInvalid = lf.input := by
        have h := List.takeWhile_append_dropWhile RawLine.isInvalid lf.input
        rw [hsplit, List.append_nil] at h
        exact h
      rw [advanceFuel_eof lf.input lf rfl hsplit]
      refine ⟨by simp [hn], by rw [htw], ?_, fun _ => ⟨rfl, hn, rfl⟩⟩
      intro v t rest h
      exact absurd h (by simp)
    | cons raw rest =>
      cases raw with
      | invalid =>
        have hhead := List.head_dropWhile_not RawLine.isInvalid lf.input
          (by rw [hsplit]; simp)
        simp only [hsplit, List.head_cons, RawLine.isInvalid] at hhead
        exact absurd hhead (by decide)
      | valid v0 t0 =>
        rw [advanceFuel_valid lf.input lf v0 t0 rest rfl hsplit]
        refine ⟨by simp [hc], rfl, ?_, ?_⟩
        · intro v t rest2 h
          injection h with h1 h2
          injection h1 with hv ht
          subst hv; subst ht; subst h2
          refine ⟨rfl, rfl, ?_⟩
          show (!lf.is_completed) = true
          rw [hc]
          rfl
        · intro h
          exact absurd h (by simp)

/-- C8.  `advance()` on a live stream logs file+line for every leading line
with malformed JSON or a bad `time` field, skips those lines, and buffers the
first valid record (continuing at the following line); it returns `true` iff
a record is now buffered; reaching end of input puts the stream into the
terminal completed state, and on a completed stream `advance()` returns
`false` leaving the state untouched (so every further call also returns
`false` without reading). -/
theorem c8_advance_skips_logs_and_completes :
    (∀ lf : LogFile, lf.is_completed = true → lf.advance = (lf, false))
    ∧ (∀ lf : LogFile, lf.is_completed = false → lf.next = none →
        ((lf.advance).2 = ((lf.advance).1.next).isSome
         ∧ (lf.advance).1.diags =
             lf.diags ++ skipDiags lf.name lf.line
               (lf.input.takeWhile RawLine.isInvalid).length
         ∧ (∀ (v : JMap) (t : Nat) (rest : List RawLine),
              lf.input.dropWhile RawLine.isInvalid = .valid v t :: rest →
              (lf.advance).1.next = some ⟨v, t, ⟨lf.name,
                  lf.line + (lf.input.takeWhile RawLine.isInvalid).length⟩⟩
              ∧ (lf.advance).1.input = rest
              ∧ (lf.advance).2 = true)
         ∧ (lf.input.dropWhile RawLine.isInvalid = [] →
              (lf.advance).1.is_completed = true
              ∧ (lf.advance).1.next = none
              ∧ (lf.advance).2 = false))) :=
  advance_char

/-- Witness for C8, at a stream whose input is one invalid line followed by
two valid records: `advance` logs (f, 0), buffers the record of line 1, and
returns true; then a completed stream ignores `advance`. -/
theorem c8_advance_skips_logs_and_completes_witness :
    (((⟨[.invalid, .valid [("a", .str "x")] 5, .valid [] 7], "f", 0, false, none, []⟩ :
        LogFile).advance).1.diags = [("f", 0)]
     ∧ ((⟨[.invalid, .valid [("a", .str "x")] 5, .valid [] 7], "f", 0, false, none, []⟩ :
        LogFile).advance).1.next = some ⟨[("a", .str "x")], 5, ⟨"f", 1⟩⟩
     ∧ ((⟨[.invalid, .valid [("a", .str "x")] 5, .valid [] 7], "f", 0, false, none, []⟩ :
        LogFile).advance).2 = true)
    ∧ ((⟨[], "g", 3, true, none, [("g", 0)]⟩ : LogFile).advance
        = (⟨[], "g", 3, true, none, [("g", 0)]⟩, false)) := by
  constructor
  · have h := c8_advance_skips_logs_and_completes.2
      ⟨[.invalid, .valid [("a", .str "x")] 5, .valid [] 7], "f", 0, false, none, []⟩
      rfl rfl
    obtain ⟨_, hdiags, hvalid, _⟩ := h
    have hv := hvalid [("a", .str "x")] 5 [.valid [] 7] rfl
    exact ⟨hdiags, hv.1, hv.2.2⟩
  · exact c8_advance_skips_logs_and_completes.1 ⟨[], "g", 3, true, none, [("g", 0)]⟩ rfl

/-!
## `src/main.rs` — `Aggregator` (lines 171–217)
-/

/-- `LogFile::time` (main.rs 88–94).  Rust panics when no record is buffered
("Attempt to peek at a completed LogFile!"); that state is unreachable on the
Aggregator's active streams (each always holds a lookahead), and the model
returns 0 there. -/
def LogFile.timeD (lf : LogFile) : Nat :=
  match lf.next with
  | some l => l.time
  | none => 0

/-- Insertion step of the descending sort by lookahead time. -/
def insertDesc (x : LogFile) : List LogFile → List LogFile
  | [] => [x]
  | y :: ys => if y.timeD < x.timeD then x :: y :: ys else y :: insertDesc x ys

/-- The `logs.sort_unstable_by(|left, right| right.time().cmp(&left.time()))`
of `Aggregator::new` (main.rs 187): a sort by descending lookahead time (the
code comment says "oldest first", but the reversed comparator puts the newest
first).  `sort_unstable_by` leaves the relative order of equal keys
unspecified; the model fixes one concrete outcome, which no claim depends on
(C2's results are order-invariant and C3's counterexample uses distinct
initial timestamps). -/
def sortDescByTime (logs : List LogFile) : List LogFile :=
  logs.foldr insertDesc []

/-- `Aggregator::new` (main.rs 176–190): prime every stream with one
`advance`, retain the uncompleted ones, sort descending by lookahead time. -/
def Aggregator.new (logs : List LogFile) : List LogFile :=
  sortDescByTime
    ((logs.map (fun lf => (lf.advance).1)).filter (fun lf => !lf.is_completed))

/-- The `min_by` scan of `Aggregator::next` (main.rs 201–206): index and time
of the first stream holding the minimal lookahead time (Rust's `min_by`
returns the first of several equally minimal elements). -/
def findMinIdxTime : List LogFile → Nat × Nat
  | [] => (0, 0)
  | x :: xs =>
    match xs with
    | [] => (0, x.timeD)
    | _ :: _ =>
      let p := findMinIdxTime xs
      if p.2 < x.timeD then (p.1 + 1, p.2) else (0, x.timeD)

/-- `Aggregator::next` (main.rs 196–217): empty active set ends the stream;
otherwise take the buffered record of the minimal stream, re-advance that
stream, and evict it when the re-advance yields nothing.  (`min.take()` on a
stream with no buffered record panics in Rust; that state is unreachable
under the Aggregator invariant, and the model returns `none`.) -/
def Aggregator.next (logs : List LogFile) : Option (Line × List LogFile) :=
  match logs with
  | [] => none
  | _ :: _ =>
    let i := (findMinIdxTime logs).1
    let lf := logs.getD i default
    match lf.next with
    | none => none
    | some result =>
      let adv := ({ lf with next := none } : LogFile).advance
      some (result, if adv.2 then logs.set i adv.1 else logs.eraseIdx i)

/-- Work left in one stream: remaining input lines plus the buffered
record. -/
def LogFile.measure (lf : LogFile) : Nat :=
  lf.input.length + (if lf.next.isSome then 1 else 0)

def sumMeasure (logs : List LogFile) : Nat := (logs.map LogFile.measure).sum

/-- The pull loop draining the `Aggregator` iterator.  `fuel` bounds the
number of pulls; `sumMeasure` units always suffice because every successful
pull removes at least one unit of measure (`next_measure_lt` below) and a
zero-measure state has nothing buffered, so `next` yields `none`. -/
def aggRun : Nat → List LogFile → List Line
  | 0, _ => []
  | fuel + 1, logs =>
    match Aggregator.next logs with
    | none => []
    | some (l, logs2) => l :: aggRun fuel logs2

/-- `LogFile::new` (main.rs 63–86), abstracting the file handle and gzip
sniffing into the list of (already decoded) input lines. -/
def mkLogFile (name : String) (input : List RawLine) : LogFile :=
  { input := input, name := name, line := 0, is_completed := false,
    next := none, diags := [] }

/-- The ingestion side of `main` (main.rs 31–32): open all sources, build the
Aggregator, drain it. -/
def aggregate (files : List (String × List RawLine)) : List Line :=
  let logs := Aggregator.new (files.map fun f => mkLogFile f.1 f.2)
  aggRun (sumMeasure logs) logs

/-- The records a source file yields: its valid lines with their file
provenance, skipping invalid ones (line numbering starts at `ln`). -/
def validLines : List RawLine → String → Nat → List Line
  | [], _, _ => []
  | .invalid :: rest, name, ln => validLines rest name (ln + 1)
  | .valid v t :: rest, name, ln => ⟨v, t, ⟨name, ln⟩⟩ :: validLines rest name (ln + 1)

/-- All records a stream can still produce: the buffered one, then the valid
remainder of its input. -/
def streamRecords (lf : LogFile) : List Line :=
  lf.next.toList ++ validLines lf.input lf.name lf.line

/-- All records the active streams can still produce. -/
def recordsOf (logs : List LogFile) : List Line :=
  (logs.map streamRecords).flatten

/-- The Aggregator invariant for an active stream: live, holding a lookahead,
and with its pending records non-decreasing in time. -/
def StreamOK (lf : LogFile) : Prop :=
  lf.is_completed = false ∧ lf.next.isSome = true
  ∧ List.Chain' (fun a b => a ≤ b) ((streamRecords lf).map Line.time)

theorem validLines_shift (input : List RawLine) (name : String) (ln : Nat) :
    validLines input name ln =
      validLines (input.dropWhile RawLine.isInvalid) name
        (ln + (input.takeWhile RawLine.isInvalid).length) := by
  induction input generalizing ln with
  | nil => rfl
  | cons raw rest ih =>
    cases raw with
    | invalid =>
      show validLines rest name (ln + 1) = _
      rw [ih (ln + 1)]
      simp only [List.dropWhile, List.takeWhile, RawLine.isInvalid, List.length_cons]
      congr 1
      omega
    | valid v t =>
      simp only [List.dropWhile, List.takeWhile, RawLine.isInvalid,
        List.length_nil, Nat.add_zero]

theorem validLines_of_dropWhile_nil (input : List RawLine) (name : String) (ln : Nat)
    (h : input.dropWhile RawLine.isInvalid = []) :
    validLines input name ln = [] := by
  rw [validLines_shift, h]
  rfl

theorem validLines_of_dropWhile_valid (input : List RawLine) (name : String) (ln : Nat)
    (v : JMap) (t : Nat) (rest : List RawLine)
    (h : input.dropWhile RawLine.isInvalid = .valid v t :: rest) :
    validLines input name ln =
      ⟨v, t, ⟨name, ln + (input.takeWhile RawLine.isInvalid).length⟩⟩ ::
        validLines rest name (ln + (input.takeWhile RawLine.isInvalid).length + 1) := by
  rw [validLines_shift, h]
  rfl

theorem measure_take (lf : LogFile) (l : Line) (h : lf.next = some l) :
    ({ lf with next := none } : LogFile).measure + 1 = lf.measure := by
  simp [LogFile.measure, h]

/-- The behaviour of one `advance` from a freshly taken stream, in the terms
the Aggregator proofs need. -/
theorem advance_run (lf : LogFile) (hc : lf.is_completed = false)
    (hn : lf.next = none) :
    streamRecords ((lf.advance).1) = streamRecords lf
    ∧ (lf.advance).2 = !(lf.advance).1.is_completed
    ∧ ((lf.advance).2 = false → streamRecords lf = [])
    ∧ ((lf.advance).2 = true →
        ((lf.advance).1.next.isSome = true ∧ (lf.advance).1.is_completed = false))
    ∧ (lf.advance).1.measure ≤ lf.measure := by
  rw [advance_not_completed lf hc]
  cases hsplit : lf.input.dropWhile RawLine.isInvalid with
  | nil =>
    rw [advanceFuel_eof lf.input lf rfl hsplit]
    have hvl : validLines lf.input lf.name lf.line = [] :=
      validLines_of_dropWhile_nil _ _ _ hsplit
    refine ⟨?_, rfl, ?_, ?_, ?_⟩
    · simp only [streamRecords, hn, hvl]
      rfl
    · intro _
      simp only [streamRecords, hn, hvl]
      rfl
    · intro hfalse
      exact Bool.noConfusion hfalse
    · simp only [LogFile.measure, hn]
      simp
  | cons raw rest =>
    cases raw with
    | invalid =>
      have hhead := List.head_dropWhile_not RawLine.isInvalid lf.input
        (by rw [hsplit]; simp)
      simp only [hsplit, List.head_cons, RawLine.isInvalid] at hhead
      exact absurd hhead (by decide)
    | valid v t =>
      rw [advanceFuel_valid lf.input lf v t rest rfl hsplit]
      have hvl := validLines_of_dropWhile_valid lf.input lf.name lf.line v t rest hsplit
      have hlen : lf.input.length =
          (lf.input.takeWhile RawLine.isInvalid).length + (1 + rest.length) := by
        have h := List.takeWhile_append_dropWhile RawLine.isInvalid lf.input
        have h2 := congrArg List.length h
        rw [List.length_append, hsplit] at h2
        simp only [List.length_cons] at h2
        omega
      refine ⟨?_, rfl, ?_, ?_, ?_⟩
      · simp only [streamRecords, hn, hvl]
        rfl
      · intro hfalse
        rw [show ((LogFile.mk rest lf.name
              (lf.line + (lf.input.takeWhile RawLine.isInvalid).length + 1)
              lf.is_completed
              (some ⟨v, t, ⟨lf.name,
                lf.line + (lf.input.takeWhile RawLine.isInvalid).length⟩⟩)
              (lf.diags ++ skipDiags lf.name lf.line
                (lf.input.takeWhile RawLine.isInvalid).length),
            !lf.is_completed).2) = !lf.is_completed from rfl, hc] at hfalse
        exact Bool.noConfusion hfalse
      · intro _
        exact ⟨rfl, hc⟩
      · simp only [LogFile.measure, hn]
        simp
        omega

theorem sumMeasure_set :
    ∀ (logs : List LogFile) (i : Nat) (x : LogFile), i < logs.length →
      sumMeasure (logs.set i x) + (logs.getD i default).measure
        = sumMeasure logs + x.measure := by
  intro logs
  induction logs with
  | nil => intro i x h; simp at h
  | cons y rest ih =>
    intro i x h
    cases i with
    | zero =>
      show sumMeasure (x :: rest) + y.measure = _
      simp only [sumMeasure, List.map_cons, List.sum_cons]
      omega
    | succ j =>
      have hj : j < rest.length := by simpa using h
      show sumMeasure (y :: rest.set j x) + (rest.getD j default).measure = _
      simp only [sumMeasure, List.map_cons, List.sum_cons]
      have := ih j x hj
      simp only [sumMeasure] at this
      omega

theorem sumMeasure_erase :
    ∀ (logs : List LogFile) (i : Nat), i < logs.length →
      sumMeasure (logs.eraseIdx i) + (logs.getD i default).measure = sumMeasure logs := by
  intro logs
  induction logs with
  | nil => intro i h; simp at h
  | cons y rest ih =>
    intro i h
    cases i with
    | zero =>
      show sumMeasure rest + y.measure = _
      simp only [sumMeasure, List.map_cons, List.sum_cons]
      omega
    | succ j =>
      have hj : j < rest.length := by simpa using h
      show sumMeasure (y :: rest.eraseIdx j) + (rest.getD j default).measure = _
      simp only [sumMeasure, List.map_cons, List.sum_cons]
      have := ih j hj
      simp only [sumMeasure] at this
      omega

theorem getD_mem (logs : List LogFile) (i : Nat) (h : i < logs.length) :
    logs.getD i default ∈ logs := by
  rw [List.getD_eq_getElem logs default h]
  exact List.getElem_mem h

/-- `min_by` specification: the returned index is in range, carries the
minimal lookahead time, and is the first index attaining it. -/
theorem findMin_spec :
    ∀ logs : List LogFile, logs ≠ [] →
      ((findMinIdxTime logs).1 < logs.length
       ∧ (findMinIdxTime logs).2 = (logs.getD (findMinIdxTime logs).1 default).timeD
       ∧ (∀ j, j < logs.length →
            (findMinIdxTime logs).2 ≤ (logs.getD j default).timeD)
       ∧ (∀ j, j < (findMinIdxTime logs).1 →
            (findMinIdxTime logs).2 < (logs.getD j default).timeD)) := by
  intro logs
  induction logs with
  | nil => intro h; exact absurd rfl h
  | cons x xs ih =>
    intro _
    cases xs with
    | nil =>
      refine ⟨by simp [findMinIdxTime], by simp [findMinIdxTime], ?_, ?_⟩
      · intro j hj
        have hj0 : j = 0 := by simpa using hj
        subst hj0
        simp [findMinIdxTime]
      · intro j hj
        simp [findMinIdxTime] at hj
    | cons y ys =>
      have hne : y :: ys ≠ [] := List.cons_ne_nil y ys
      obtain ⟨ih1, ih2, ih3, ih4⟩ := ih hne
      have hunfold : findMinIdxTime (x :: y :: ys) =
          if (findMinIdxTime (y :: ys)).2 < x.timeD
          then ((findMinIdxTime (y :: ys)).1 + 1, (findMinIdxTime (y :: ys)).2)
          else (0, x.timeD) := rfl
      by_cases hlt : (findMinIdxTime (y :: ys)).2 < x.timeD
      · rw [hunfold, if_pos hlt]
        refine ⟨by simpa using ih1, by simpa using ih2, ?_, ?_⟩
        · intro j hj
          cases j with
          | zero => exact le_of_lt hlt
          | succ k =>
            show (findMinIdxTime (y :: ys)).2 ≤ ((y :: ys).getD k default).timeD
            exact ih3 k (by simpa using hj)
        · intro j hj
          cases j with
          | zero => exact hlt
          | succ k =>
            show (findMinIdxTime (y :: ys)).2 < ((y :: ys).getD k default).timeD
            exact ih4 k (by simpa using hj)
      · rw [hunfold, if_neg hlt]
        push_neg at hlt
        refine ⟨by simp, by simp, ?_, ?_⟩
        · intro j hj
          cases j with
          | zero => simp
          | succ k =>
            show x.timeD ≤ ((y :: ys).getD k default).timeD
            exact le_trans hlt (ih3 k (by simpa using hj))
        · intro j hj
          simp at hj

theorem next_measure_lt (logs logs2 : List LogFile) (l : Line)
    (h : Aggregator.next logs = some (l, logs2)) :
    sumMeasure logs2 < sumMeasure logs := by
  match hlogs : logs with
  | [] => exact absurd h (by simp [Aggregator.next])
  | a :: as =>
    rw [Aggregator.next] at h
    set i := (findMinIdxTime (a :: as)).1 with hi
    set lf := (a :: as).getD i default with hlf
    match hnext : lf.next with
    | none => rw [hnext] at h; exact absurd h (by simp)
    | some result =>
      rw [hnext] at h
      have hi_lt : i < (a :: as).length := by
        by_contra hge
        push_neg at hge
        have : (a :: as).getD i default = default := List.getD_eq_default _ _ hge
        rw [← hlf] at this
        rw [this] at hnext
        exact Option.noConfusion hnext
      have hmem : lf ∈ a :: as := hlf ▸ getD_mem (a :: as) i hi_lt
      have hcomp : ({ lf with next := none } : LogFile).is_completed = lf.is_completed := rfl
      have hmtake : ({ lf with next := none } : LogFile).measure + 1 = lf.measure :=
        measure_take lf result hnext
      have hadv_le : (({ lf with next := none } : LogFile).advance).1.measure
          ≤ ({ lf with next := none } : LogFile).measure := by
        by_cases hcompl : lf.is_completed = true
        · rw [advance_completed _ (hcomp.trans hcompl)]
        · have hc2 : ({ lf with next := none } : LogFile).is_completed = false := by
            rw [hcomp]
            exact Bool.eq_false_iff.mpr hcompl
          exact (advance_run _ hc2 rfl).2.2.2.2
      injection h with h2
      injection h2 with hl hlogs2
      by_cases hb : (({ lf with next := none } : LogFile).advance).2 = true
      · rw [if_pos hb] at hlogs2
        have hset := sumMeasure_set (a :: as) i
          ((({ lf with next := none } : LogFile).advance).1) hi_lt
        rw [← hlf] at hset
        rw [hlogs2] at hset
        omega
      · rw [if_neg hb] at hlogs2
        have herase := sumMeasure_erase (a :: as) i hi_lt
        rw [← hlf] at herase
        rw [hlogs2] at herase
        have : 1 ≤ lf.measure := by omega
        omega

theorem recordsOf_cons (x : LogFile) (rest : List LogFile) :
    recordsOf (x :: rest) = streamRecords x ++ recordsOf rest := rfl

theorem recordsOf_decomp :
    ∀ (logs : List LogFile) (i : Nat), i < logs.length →
      (recordsOf logs).Perm
        (streamRecords (logs.getD i default) ++ recordsOf (logs.eraseIdx i)) := by
  intro logs
  induction logs with
  | nil => intro i h; simp at h
  | cons y rest ih =>
    intro i h
    cases i with
    | zero => exact List.Perm.refl _
    | succ j =>
      have hj : j < rest.length := by simpa using h
      show (recordsOf (y :: rest)).Perm
        (streamRecords (rest.getD j default) ++ recordsOf (y :: rest.eraseIdx j))
      rw [recordsOf_cons, recordsOf_cons]
      refine ((ih j hj).append_left (streamRecords y)).trans ?_
      rw [← List.append_assoc, ← List.append_assoc]
      exact (List.perm_append_comm).append_right _

theorem recordsOf_set_perm :
    ∀ (logs : List LogFile) (i : Nat) (x : LogFile), i < logs.length →
      (recordsOf (logs.set i x)).Perm
        (streamRecords x ++ recordsOf (logs.eraseIdx i)) := by
  intro logs
  induction logs with
  | nil => intro i x h; simp at h
  | cons y rest ih =>
    intro i x h
    cases i with
    | zero => exact List.Perm.refl _
    | succ j =>
      have hj : j < rest.length := by simpa using h
      show (recordsOf (y :: rest.set j x)).Perm
        (streamRecords x ++ recordsOf (y :: rest.eraseIdx j))
      rw [recordsOf_cons, recordsOf_cons]
      refine ((ih j x hj).append_left (streamRecords y)).trans ?_
      rw [← List.append_assoc, ← List.append_assoc]
      exact (List.perm_append_comm).append_right _

/-- What one successful pull of the Aggregator does: it preserves the
invariant, consumes measure, moves exactly one record (the minimal one) from
the active streams to the output, and that record's time bounds every
remaining lookahead from below. -/
theorem step_spec (logs logs2 : List LogFile) (l : Line)
    (hOK : ∀ lf ∈ logs, StreamOK lf)
    (h : Aggregator.next logs = some (l, logs2)) :
    (∀ lf ∈ logs2, StreamOK lf)
    ∧ sumMeasure logs2 < sumMeasure logs
    ∧ (l :: recordsOf logs2).Perm (recordsOf logs)
    ∧ (∀ lf ∈ logs, l.time ≤ lf.timeD)
    ∧ (∀ lf ∈ logs2, l.time ≤ lf.timeD)
    ∧ (∀ lb : Nat, (∀ lf2 ∈ logs, lb ≤ lf2.timeD) → lb ≤ l.time) := by
  have hsum := next_measure_lt logs logs2 l h
  match hlogs : logs, hOK, h, hsum with
  | [], _, h, _ => exact absurd h (by simp [Aggregator.next])
  | a :: as, hOK, h, hsum =>
    rw [Aggregator.next] at h
    set i := (findMinIdxTime (a :: as)).1 with hi
    set lf := (a :: as).getD i default with hlf
    match hnext : lf.next with
    | none => rw [hnext] at h; exact absurd h (by simp)
    | some result =>
      rw [hnext] at h
      obtain ⟨hspec1, hspec2, hspec3, _⟩ :=
        findMin_spec (a :: as) (List.cons_ne_nil a as)
      have hi_lt : i < (a :: as).length := hspec1
      have hmem : lf ∈ a :: as := hlf ▸ getD_mem (a :: as) i hi_lt
      obtain ⟨hcompl, hsome, hchain⟩ := hOK lf hmem
      injection h with h2
      injection h2 with hl hlogs2
      have htime : l.time = lf.timeD := by
        rw [← hl]
        simp [LogFile.timeD, hnext]
      have hmin_all : ∀ lf2 ∈ a :: as, l.time ≤ lf2.timeD := by
        intro lf2 hlf2
        obtain ⟨j, hj, hje⟩ := List.mem_iff_getElem.mp hlf2
        have := hspec3 j hj
        rw [List.getD_eq_getElem _ default hj, hje] at this
        have hlfmin : (findMinIdxTime (a :: as)).2 = lf.timeD := by
          rw [hspec2, ← hi, ← hlf]
        rw [hlfmin, ← htime] at this
        exact this
      have hc2 : ({ lf with next := none } : LogFile).is_completed = false := hcompl
      have AR := advance_run { lf with next := none } hc2 rfl
      have hsr : streamRecords lf = result :: streamRecords { lf with next := none } := by
        simp [streamRecords, hnext]
      have hchain2 : List.Chain' (fun x y => x ≤ y)
          (l.time :: (streamRecords { lf with next := none }).map Line.time) := by
        rw [hsr, hl] at hchain
        simpa using hchain
      by_cases hb : (({ lf with next := none } : LogFile).advance).2 = true
      · rw [if_pos hb] at hlogs2
        obtain ⟨hsome2, hcompl2⟩ := AR.2.2.2.1 hb
        have hokadv : StreamOK (({ lf with next := none } : LogFile).advance).1 := by
          refine ⟨hcompl2, hsome2, ?_⟩
          rw [AR.1]
          have := hchain2.tail
          simpa using this
        have hbound_adv : l.time ≤ ((({ lf with next := none } : LogFile).advance).1).timeD := by
          obtain ⟨x, hx⟩ := Option.isSome_iff_exists.mp hsome2
          have hSR : streamRecords (({ lf with next := none } : LogFile).advance).1
              = x :: validLines ((({ lf with next := none } : LogFile).advance).1).input
                  ((({ lf with next := none } : LogFile).advance).1).name
                  ((({ lf with next := none } : LogFile).advance).1).line := by
            simp [streamRecords, hx]
          have hS2 : streamRecords { lf with next := none }
              = x :: validLines ((({ lf with next := none } : LogFile).advance).1).input
                  ((({ lf with next := none } : LogFile).advance).1).name
                  ((({ lf with next := none } : LogFile).advance).1).line := by
            rw [← AR.1, hSR]
          rw [hS2] at hchain2
          simp only [List.map_cons] at hchain2
          have := (List.chain'_cons.mp hchain2).1
          rw [LogFile.timeD, hx]
          exact this
        refine ⟨?_, hsum, ?_, hmin_all, ?_, ?_⟩
        · intro lf2 hlf2
          rw [← hlogs2] at hlf2
          rcases List.mem_or_eq_of_mem_set hlf2 with hmem2 | heq
          · exact hOK lf2 hmem2
          · rw [heq]; exact hokadv
        · have p1 := recordsOf_set_perm (a :: as) i
            ((({ lf with next := none } : LogFile).advance).1) hi_lt
          rw [AR.1] at p1
          have p2 := recordsOf_decomp (a :: as) i hi_lt
          rw [← hlf, hsr] at p2
          rw [← hlogs2, ← hl]
          exact (p1.cons result).trans p2.symm
        · intro lf2 hlf2
          rw [← hlogs2] at hlf2
          rcases List.mem_or_eq_of_mem_set hlf2 with hmem2 | heq
          · exact hmin_all lf2 hmem2
          · rw [heq]; exact hbound_adv
        · intro lb hlb
          rw [htime]
          exact hlb lf hmem
      · rw [if_neg hb] at hlogs2
        have hempt : streamRecords { lf with next := none } = [] :=
          AR.2.2.1 (Bool.eq_false_iff.mpr hb)
        refine ⟨?_, hsum, ?_, hmin_all, ?_, ?_⟩
        · intro lf2 hlf2
          rw [← hlogs2] at hlf2
          exact hOK lf2 (List.mem_of_mem_eraseIdx hlf2)
        · have p2 := recordsOf_decomp (a :: as) i hi_lt
          rw [← hlf, hsr, hempt] at p2
          rw [← hlogs2, ← hl]
          exact p2.symm
        · intro lf2 hlf2
          rw [← hlogs2] at hlf2
          exact hmin_all lf2 (List.mem_of_mem_eraseIdx hlf2)
        · intro lb hlb
          rw [htime]
          exact hlb lf hmem

theorem aggRun_succ (fuel : Nat) (logs : List LogFile) :
    aggRun (fuel + 1) logs =
      match Aggregator.next logs with
      | none => []
      | some (l, logs2) => l :: aggRun fuel logs2 := rfl

theorem aggRun_succ_none (fuel : Nat) (logs : List LogFile)
    (h : Aggregator.next logs = none) : aggRun (fuel + 1) logs = [] := by
  rw [aggRun_succ, h]

theorem aggRun_succ_some (fuel : Nat) (logs logs2 : List LogFile) (l : Line)
    (h : Aggregator.next logs = some (l, logs2)) :
    aggRun (fuel + 1) logs = l :: aggRun fuel logs2 := by
  rw [aggRun_succ, h]

/-- Under the invariant, `next` only ever returns `none` on the empty
set: every active stream holds a lookahead. -/
theorem next_none_of_OK (logs : List LogFile) (hOK : ∀ lf ∈ logs, StreamOK lf)
    (h : Aggregator.next logs = none) : logs = [] := by
  match hlogs : logs, hOK, h with
  | [], _, _ => rfl
  | a :: as, hOK, h =>
    exfalso
    rw [Aggregator.next] at h
    obtain ⟨hspec1, _, _, _⟩ := findMin_spec (a :: as) (List.cons_ne_nil a as)
    have hmem := getD_mem (a :: as) (findMinIdxTime (a :: as)).1 hspec1
    obtain ⟨_, hsome, _⟩ := hOK _ hmem
    obtain ⟨x, hx⟩ := Option.isSome_iff_exists.mp hsome
    rw [hx] at h
    exact Option.noConfusion h

/-- The merge loop, under the invariant: its output is a permutation of all
pending records and is non-decreasing in time; moreover any lower bound on
the lookaheads bounds every output. -/
theorem aggRun_main :
    ∀ (fuel : Nat) (logs : List LogFile), (∀ lf ∈ logs, StreamOK lf) →
      sumMeasure logs ≤ fuel →
      ((aggRun fuel logs).Perm (recordsOf logs)
       ∧ List.Chain' (fun a b => a ≤ b) ((aggRun fuel logs).map Line.time)
       ∧ (∀ lb : Nat, (∀ lf ∈ logs, lb ≤ lf.timeD) →
            ∀ x ∈ aggRun fuel logs, lb ≤ x.time)) := by
  intro fuel
  induction fuel with
  | zero =>
    intro logs hOK hle
    cases logs with
    | nil =>
      refine ⟨by simp [aggRun, recordsOf], by simp [aggRun], ?_⟩
      intro lb _ x hx
      simp [aggRun] at hx
    | cons a as =>
      exfalso
      obtain ⟨_, hsome, _⟩ := hOK a (by simp)
      have h1 : 1 ≤ a.measure := by
        simp [LogFile.measure, hsome]
      have h2 : a.measure ≤ sumMeasure (a :: as) := by
        simp only [sumMeasure, List.map_cons, List.sum_cons]
        omega
      omega
  | succ fuel ih =>
    intro logs hOK hle
    cases hnext : Aggregator.next logs with
    | none =>
      have hnil := next_none_of_OK logs hOK hnext
      subst hnil
      rw [aggRun_succ_none fuel [] hnext]
      refine ⟨by simp [recordsOf], by simp, ?_⟩
      intro lb _ x hx
      simp at hx
    | some pair =>
      obtain ⟨l, logs2⟩ := pair
      rw [aggRun_succ_some fuel logs logs2 l hnext]
      obtain ⟨hOK2, hlt, hperm, hminlogs, hminlogs2, hlbl⟩ :=
        step_spec logs logs2 l hOK hnext
      have hle2 : sumMeasure logs2 ≤ fuel := by omega
      obtain ⟨ihperm, ihchain, ihlb⟩ := ih logs2 hOK2 hle2
      refine ⟨(ihperm.cons l).trans hperm, ?_, ?_⟩
      · rw [List.map_cons]
        rw [List.chain'_cons']
        refine ⟨?_, ihchain⟩
        intro y hy
        cases hout : aggRun fuel logs2 with
        | nil => rw [hout] at hy; simp at hy
        | cons z zs =>
          rw [hout] at hy
          simp only [List.map_cons, List.head?_cons, Option.mem_def,
            Option.some.injEq] at hy
          subst hy
          exact ihlb l.time hminlogs2 z (by rw [hout]; exact List.mem_cons_self z zs)
      · intro lb hlb x hx
        rcases List.mem_cons.mp hx with hx1 | hx2
        · rw [hx1]
          exact hlbl lb hlb
        · refine ihlb lb ?_ x hx2
          intro lf2 hlf2
          exact le_trans (hlbl lb hlb) (hminlogs2 lf2 hlf2)

theorem insertDesc_perm (x : LogFile) :
    ∀ l : List LogFile, (insertDesc x l).Perm (x :: l)
  | [] => List.Perm.refl _
  | y :: ys => by
    rw [insertDesc]
    by_cases h : y.timeD < x.timeD
    · rw [if_pos h]
    · rw [if_neg h]
      exact ((insertDesc_perm x ys).cons y).trans (List.Perm.swap x y ys)

theorem sortDesc_perm (l : List LogFile) : (sortDescByTime l).Perm l := by
  induction l with
  | nil => exact List.Perm.refl _
  | cons x rest ih =>
    show (insertDesc x (sortDescByTime rest)).Perm (x :: rest)
    exact (insertDesc_perm x _).trans (ih.cons x)

theorem recordsOf_perm {l1 l2 : List LogFile} (h : l1.Perm l2) :
    (recordsOf l1).Perm (recordsOf l2) :=
  (h.map streamRecords).flatten

theorem recordsOf_filter (p : LogFile → Bool) :
    ∀ logs : List LogFile, (∀ lf ∈ logs, p lf = false → streamRecords lf = []) →
      recordsOf (logs.filter p) = recordsOf logs := by
  intro logs
  induction logs with
  | nil => intro _; rfl
  | cons y rest ih =>
    intro hdrop
    have ihr := ih (fun lf hm hp => hdrop lf (List.mem_cons_of_mem y hm) hp)
    cases hp : p y with
    | true =>
      rw [List.filter_cons, if_pos (by rw [hp])]
      rw [recordsOf_cons, recordsOf_cons, ihr]
    | false =>
      rw [List.filter_cons, if_neg (by rw [hp]; exact Bool.false_ne_true)]
      rw [recordsOf_cons, hdrop y (List.mem_cons_self y rest) hp, ihr]
      rfl

/-- What `Aggregator::new` establishes: every retained stream satisfies the
invariant (given per-file sortedness), and the retained lookaheads plus
remaining valid lines are, up to permutation, exactly the valid lines of all
source files. -/
theorem new_spec (files : List (String × List RawLine))
    (hsorted : ∀ f ∈ files, List.Chain' (fun a b => a ≤ b)
        ((validLines f.2 f.1 0).map Line.time)) :
    (∀ lf ∈ Aggregator.new (files.map fun f => mkLogFile f.1 f.2), StreamOK lf)
    ∧ (recordsOf (Aggregator.new (files.map fun f => mkLogFile f.1 f.2))).Perm
        ((files.map fun f => validLines f.2 f.1 0).flatten) := by
  have hAR : ∀ f ∈ files,
      streamRecords (((mkLogFile f.1 f.2).advance).1) = validLines f.2 f.1 0 := by
    intro f _
    have AR := advance_run (mkLogFile f.1 f.2) rfl rfl
    rw [AR.1]
    rfl
  have hsortperm : (Aggregator.new (files.map fun f => mkLogFile f.1 f.2)).Perm
      (((files.map fun f => mkLogFile f.1 f.2).map (fun lf => (lf.advance).1)).filter
        (fun lf => !lf.is_completed)) := sortDesc_perm _
  constructor
  · intro lf hlf
    have hlf2 := hsortperm.mem_iff.mp hlf
    obtain ⟨hlf3, hkeep⟩ := List.mem_filter.mp hlf2
    obtain ⟨lf0, hlf0, hlfeq⟩ := List.mem_map.mp hlf3
    obtain ⟨f, hf, hf0eq⟩ := List.mem_map.mp hlf0
    subst hlfeq
    subst hf0eq
    have AR := advance_run (mkLogFile f.1 f.2) rfl rfl
    have hcompl : (((mkLogFile f.1 f.2).advance).1).is_completed = false := by
      simpa using hkeep
    have hb : (((mkLogFile f.1 f.2).advance).2) = true := by
      rw [AR.2.1, hcompl]
      rfl
    obtain ⟨hsome, _⟩ := AR.2.2.2.1 hb
    refine ⟨hcompl, hsome, ?_⟩
    rw [hAR f hf]
    exact hsorted f hf
  · have hfilter : recordsOf
        ((((files.map fun f => mkLogFile f.1 f.2).map (fun lf => (lf.advance).1)).filter
          (fun lf => !lf.is_completed)))
        = recordsOf ((files.map fun f => mkLogFile f.1 f.2).map (fun lf => (lf.advance).1)) := by
      apply recordsOf_filter
      intro lf hm hp
      obtain ⟨lf0, hlf0, hlfeq⟩ := List.mem_map.mp hm
      obtain ⟨f, hf, hf0eq⟩ := List.mem_map.mp hlf0
      subst hlfeq
      subst hf0eq
      have AR := advance_run (mkLogFile f.1 f.2) rfl rfl
      have hcompl : (((mkLogFile f.1 f.2).advance).1).is_completed = true := by
        simpa using hp
      have hb : (((mkLogFile f.1 f.2).advance).2) = false := by
        rw [AR.2.1, hcompl]
        rfl
      have hempty := AR.2.2.1 hb
      rw [AR.1, hempty]
    have hmaps : ((files.map fun f => mkLogFile f.1 f.2).map
          (fun lf => (lf.advance).1)).map streamRecords
        = files.map fun f => validLines f.2 f.1 0 := by
      rw [List.map_map, List.map_map]
      exact List.map_congr_left (fun f hf => hAR f hf)
    refine (recordsOf_perm hsortperm).trans ?_
    rw [hfilter]
    rw [show recordsOf ((files.map fun f => mkLogFile f.1 f.2).map
          (fun lf => (lf.advance).1))
        = (((files.map fun f => mkLogFile f.1 f.2).map
            (fun lf => (lf.advance).1)).map streamRecords).flatten from rfl]
    rw [hmaps]

/-- C2.  For any set of source files whose own valid records are
non-decreasing in time, the Aggregator's output is non-decreasing by
timestamp and is a permutation of the valid records of all the inputs — each
exactly once, with invalid (skipped) lines omitted. -/
theorem c2_aggregator_merge_sorted_and_complete
    (files : List (String × List RawLine))
    (hsorted : ∀ f ∈ files, List.Chain' (fun a b => a ≤ b)
        ((validLines f.2 f.1 0).map Line.time)) :
    List.Chain' (fun a b => a ≤ b) ((aggregate files).map Line.time)
    ∧ (aggregate files).Perm ((files.map fun f => validLines f.2 f.1 0).flatten) := by
  obtain ⟨hOK, hperm⟩ := new_spec files hsorted
  obtain ⟨hp, hc, _⟩ := aggRun_main
    (sumMeasure (Aggregator.new (files.map fun f => mkLogFile f.1 f.2)))
    (Aggregator.new (files.map fun f => mkLogFile f.1 f.2)) hOK (le_refl _)
  exact ⟨hc, hp.trans hperm⟩

/-- Witness for C2: two concrete files — one with an invalid line between two
records — merge into a sorted permutation of their valid records. -/
theorem c2_aggregator_merge_sorted_and_complete_witness :
    List.Chain' (fun a b => a ≤ b)
      ((aggregate [("A", [.valid [] 1, .invalid, .valid [] 2]),
                   ("B", [.valid [] 3])]).map Line.time)
    ∧ (aggregate [("A", [.valid [] 1, .invalid, .valid [] 2]),
                  ("B", [.valid [] 3])]).Perm
        (([("A", [RawLine.valid [] 1, .invalid, .valid [] 2]),
           ("B", [RawLine.valid [] 3])].map
            fun f => validLines f.2 f.1 0).flatten) :=
  c2_aggregator_merge_sorted_and_complete
    [("A", [.valid [] 1, .invalid, .valid [] 2]), ("B", [.valid [] 3])]
    (by
      intro f hf
      simp only [List.mem_cons, List.not_mem_nil, or_false] at hf
      rcases hf with h | h <;> (subst h; simp [validLines]))

/-- C3 counterexample.  The claim says a tie at the minimal lookahead
timestamp goes to the first stream in the order the sources were supplied.
With sources A = (times 1, 5) and B = (time 5), after A's first record both
streams hold time 5; the claim predicts output A1, A5, B5, but the program
produces A1, B5, A5: `Aggregator::new` sorted the streams by descending
initial timestamp (B before A), and the `min_by` tie goes to the first
stream of that internal order. -/
theorem c3_tie_not_supply_order :
    (aggregate [("A", [.valid [] 1, .valid [] 5]), ("B", [.valid [] 5])]).map
        (fun l => (l.src.file, l.time))
      = [("A", 1), ("B", 5), ("A", 5)]
    ∧ ([("A", 1), ("B", 5), ("A", 5)] : List (String × Nat))
      ≠ [("A", 1), ("A", 5), ("B", 5)] :=
  ⟨rfl, by decide⟩

/-- C3 amended.  Tie-breaking is deterministic, but by position in the
Aggregator's internal vector (the order left by `Aggregator::new`'s sort by
descending initial timestamp, later shortened by evictions), not by source
supply order: the pull scans the vector and takes the buffered record of the
first stream holding the minimal lookahead time. -/
theorem c3_amended_first_minimal_in_internal_order (logs : List LogFile)
    (hne : logs ≠ []) :
    ((findMinIdxTime logs).1 < logs.length
     ∧ (findMinIdxTime logs).2 = (logs.getD (findMinIdxTime logs).1 default).timeD
     ∧ (∀ j, j < logs.length →
          (findMinIdxTime logs).2 ≤ (logs.getD j default).timeD)
     ∧ (∀ j, j < (findMinIdxTime logs).1 →
          (findMinIdxTime logs).2 < (logs.getD j default).timeD)
     ∧ (∀ (l : Line) (logs2 : List LogFile),
          Aggregator.next logs = some (l, logs2) →
          (logs.getD (findMinIdxTime logs).1 default).next = some l)) := by
  obtain ⟨h1, h2, h3, h4⟩ := findMin_spec logs hne
  refine ⟨h1, h2, h3, h4, ?_⟩
  intro l logs2 h
  match hlogs : logs, h with
  | a :: as, h =>
    rw [Aggregator.next] at h
    match hnext : ((a :: as).getD (findMinIdxTime (a :: as)).1 default).next with
    | none =>
      rw [hnext] at h
      exact absurd h (by simp)
    | some result =>
      rw [hnext] at h
      injection h with h2
      injection h2 with hl _
      rw [hl]

/-- Witness for C3's amended claim: two streams tied at time 5, the first in
internal order named B — the pull returns B's record. -/
theorem c3_amended_first_minimal_in_internal_order_witness :
    (([⟨[], "B", 1, false, some ⟨[], 5, ⟨"B", 0⟩⟩, []⟩,
       ⟨[], "A", 2, false, some ⟨[], 5, ⟨"A", 1⟩⟩, []⟩] : List LogFile).getD
        (findMinIdxTime
          [⟨[], "B", 1, false, some ⟨[], 5, ⟨"B", 0⟩⟩, []⟩,
           ⟨[], "A", 2, false, some ⟨[], 5, ⟨"A", 1⟩⟩, []⟩]).1 default).next
      = some ⟨[], 5, ⟨"B", 0⟩⟩ :=
  (c3_amended_first_minimal_in_internal_order
      [⟨[], "B", 1, false, some ⟨[], 5, ⟨"B", 0⟩⟩, []⟩,
       ⟨[], "A", 2, false, some ⟨[], 5, ⟨"A", 1⟩⟩, []⟩]
      (List.cons_ne_nil _ _)).2.2.2.2
    ⟨[], 5, ⟨"B", 0⟩⟩
    [⟨[], "A", 2, false, some ⟨[], 5, ⟨"A", 1⟩⟩, []⟩]
    rfl

/-!
## `src/pretty.rs` — `PrettyDescriptor` evaluation, and
## `src/translate.rs` — `Translation`

`PrettyFragment` (pretty.rs 17–31): `Replace` carries the compiled
regex + replacement + global flag only through the substitution they denote,
embedded as a `String → String` function; the claims never look inside a
regex substitution.  `print` (pretty.rs 267–300) writes fragments left to
right; the embedding accumulates the same bytes into a `String`
(`print_to_string`, pretty.rs 302–309).
-/

/-- Rust's `str::trim`: strip leading and trailing whitespace.  (Defined on
the character list so that the kernel can evaluate it on concrete strings;
core's `String.trim` works on byte positions and does not reduce.) -/
def strTrim (s : String) : String :=
  ⟨((s.data.dropWhile Char.isWhitespace).reverse.dropWhile Char.isWhitespace).reverse⟩

inductive PrettyFragment where
  | Literal (lit : String)
  | Var (name : String)
  | Pre (pre : List PrettyFragment) (base : List PrettyFragment)
  | Replace (base : List PrettyFragment) (apply : String → String)

mutual

/-- One fragment of `PrettyDescriptor::print` (pretty.rs 267–300). -/
def printFrag (values : JMap) : PrettyFragment → String
  | .Literal lit => lit
  | .Var name =>
    match jget values name with
    | some value => pretty_value value
    | none => ""
  | .Pre p b =>
    let result := printDesc values b
    let trimmed := strTrim result
    if trimmed = "" then "" else printDesc values p ++ trimmed
  | .Replace b apply => apply (printDesc values b)

/-- `PrettyDescriptor::print` over the fragment list. -/
def printDesc (values : JMap) : List PrettyFragment → String
  | [] => ""
  | frag :: rest => printFrag values frag ++ printDesc values rest

end

/-- `Map::insert` of serde_json: overwrites in place when the key exists,
appends otherwise. -/
def jinsert : JMap → String → JValue → JMap
  | [], key, v => [(key, v)]
  | (k, w) :: rest, key, v =>
    if k = key then (k, v) :: rest else (k, w) :: jinsert rest key v

/-- `Map::remove` of serde_json.  (With serde_json's preserve_order feature
`remove` is a swap-remove, so the residual key order can differ from simple
erasure; no claim observes the order after a removal, so the model erases in
place.) -/
def jremove (m : JMap) (key : String) : JMap :=
  m.filter (fun kv => !(kv.1 == key))

/-- `Translation` (translate.rs 4–8). -/
structure Translation where
  output : String
  pattern : List PrettyFragment

/-- `Translation::translate` (translate.rs 19–27): render the pattern
against the record; a blank result deletes the output field, any other
result is inserted as a string. -/
def Translation.translate (t : Translation) (values : JMap) : JMap :=
  let result := printDesc values t.pattern
  if strTrim result = "" then jremove values t.output
  else jinsert values t.output (JValue.str result)

/-!
## `src/main.rs` — the Orchestrator after aggregation (lines 28–38, 219–294)
-/

/-- `do_range` (main.rs 232–254): Rust's `min..`, `..max`, `min..max`
`contains`. -/
def do_range (src : List Line) (range : Option Nat × Option Nat) : List Line :=
  match range with
  | (none, none) => src
  | (some lo, none) => src.filter (fun line => decide (lo ≤ line.time))
  | (none, some hi) => src.filter (fun line => decide (line.time < hi))
  | (some lo, some hi) =>
    src.filter (fun line => decide (lo ≤ line.time ∧ line.time < hi))

/-- `do_filter` (main.rs 219–230). -/
def do_filter (src : List Line) (maybe_pattern : Option FilterSet) : List Line :=
  match maybe_pattern with
  | some f => src.filter (fun row => f.matches row.value)
  | none => src

/-- `do_pretty` (main.rs 278–294): render each record — through the pretty
pattern when one is configured, else as JSON (`serde_json::to_writer`,
abstracted as `jsonLine`) — and emit one output line per record. -/
def do_pretty (src : List Line) (maybe_pretty : Option (List PrettyFragment))
    (jsonLine : JMap → String) : List String :=
  match maybe_pretty with
  | some pretty => src.map (fun line => printDesc line.value pretty)
  | none => src.map (fun line => jsonLine line.value)

set_option linter.unusedVariables false in
/-- `main` (main.rs 28–38) after aggregation: range filter → content filter
→ renderer → sink.  The `translations` parameter mirrors `args.translations`
(args.rs 180, 359–366): the CLI parses it, but `main` never uses it — there
is no translation stage in the wired pipeline (main.rs does not even declare
`mod translate`, so translate.rs is dead code), which is what C1 is about. -/
def mainPipeline (records : List Line) (range : Option Nat × Option Nat)
    (maybe_filter : Option FilterSet) (translations : List Translation)
    (maybe_pretty : Option (List PrettyFragment))
    (jsonLine : JMap → String) : List String :=
  do_pretty (do_filter (do_range records range) maybe_filter) maybe_pretty jsonLine

/-- C1.  The claim says every record that passes the filters gets every
configured Translation applied, in order, before rendering.  The program
does not: `main` (main.rs 28–38) wires range → filter → pretty → sink and
never touches `args.translations` (translate.rs is not even declared as a
module).  At the failing input — one record `message: "hi"`, one configured
translation overwriting `message` with `BYE`, pretty pattern `%message` —
the pipeline prints `hi`, while applying the translation (as the claim, the
spec, and the program's own `--translate` help text demand) would print
`BYE`. -/
theorem c1_translations_never_applied :
    mainPipeline [⟨[("message", .str "hi")], 0, ⟨"f", 0⟩⟩] (none, none) none
        [⟨"message", [.Literal "BYE"]⟩] (some [.Var "message"]) (fun _ => "")
      = ["hi"]
    ∧ Translation.translate ⟨"message", [.Literal "BYE"]⟩ [("message", .str "hi")]
      = [("message", .str "BYE")]
    ∧ printDesc [("message", .str "BYE")] [.Var "message"] = "BYE"
    ∧ ("hi" : String) ≠ "BYE" := by
  refine ⟨rfl, rfl, rfl, by decide⟩

/-!
## `src/filter.rs` — `FilterSet::parse` (lines 40–52) and the shape regex
`PATTERN` = `^(%(\w+)(!)?=)?(.*)$` (lines 16–18)

The regex is modelled by its matching semantics under the Rust regex crate:
`^` and `$` anchor to the start and end of the haystack (`$` does not match
before a trailing newline there), `.` and `\w` never match a newline, so a
match exists exactly when the input contains no `'\n'`; on a match,
leftmost-first preference tries the optional group first, `\w+` greedily
takes the maximal word-character run (no shorter run can match, since `!`
and `=` are not word characters), and `(.*)` — a group that always
participates in a successful match — takes the rest.
-/

/-- Rust `\w`: a word character (letters, digits, underscore on ASCII; the
Unicode extras never matter to the claims — in particular `\w` never matches
a newline). -/
def isWordChar (c : Char) : Bool := c.isAlphanum || c = '_'

/-- The captures of `PATTERN`: group 2 (field name), group 3 (the `!`),
group 4 (the body). -/
structure ShapeCaptures where
  g2 : Option String
  g3 : Bool
  g4 : Option String

/-- The optional head group `%(\w+)(!)?=`. -/
def shapeGroup (cs : List Char) : Option (String × Bool × List Char) :=
  match cs with
  | '%' :: rest =>
    let w := rest.takeWhile isWordChar
    if w.isEmpty then none
    else
      match rest.dropWhile isWordChar with
      | '!' :: '=' :: r3 => some (⟨w⟩, true, r3)
      | '=' :: r3 => some (⟨w⟩, false, r3)
      | _ => none
  | _ => none

/-- `PATTERN.captures(base)` (filter.rs 17 and 41). -/
def findShape (s : String) : Option ShapeCaptures :=
  if s.data.contains '\n' then none
  else
    match shapeGroup s.data with
    | some (k, bang, rest) => some ⟨some k, bang, some ⟨rest⟩⟩
    | none => some ⟨none, false, some s⟩

/-- The three panic sites of `FilterSet::parse` (filter.rs 41, 45, 48): the
two "does not match valid pattern" expects and the "not a valid regex"
expect. -/
inductive FilterParseErr where
  | shapeMismatchCaptures
  | shapeMismatchGroup4
  | invalidRegex
deriving DecidableEq

/-- `FilterSet::parse` (filter.rs 40–52), with `Regex::new` abstracted by
`compile` (`none` = regex compilation error).  The key defaults to
`message` when group 2 is absent. -/
def FilterSet.parse (compile : String → Option (String → Bool)) (base : String) :
    Except FilterParseErr Filter :=
  match findShape base with
  | none => .error .shapeMismatchCaptures
  | some caps =>
    let key := caps.g2.getD "message"
    let inverse := caps.g3
    match caps.g4 with
    | none => .error .shapeMismatchGroup4
    | some body =>
      match compile body with
      | none => .error .invalidRegex
      | some matcher => .ok ⟨key, inverse, matcher⟩

/-- C10 counterexample.  The claim says the shape regex matches any string,
making both "does not match valid pattern" branches unreachable.  It does
not: `.` and `\w` do not match a newline and `$` anchors to the end of the
haystack, so an input containing a newline has no match, and `parse` hits
the first "does not match valid pattern" panic on the concrete input
`"a\nb"`. -/
theorem c10_shape_regex_rejects_newline :
    findShape "a\nb" = none
    ∧ FilterSet.parse (fun _ => some (fun _ => false)) "a\nb"
        = .error .shapeMismatchCaptures :=
  ⟨rfl, rfl⟩

/-- C10 amended.  The shape regex matches exactly the inputs containing no
newline.  For those, group 4 always participates, both "does not match valid
pattern" branches are unreachable, and `parse` can only fail when the clause
body is not a valid regular expression; an input containing a newline fails
the captures `expect`. -/
theorem c10_amended_parse_fails_only_on_bad_regex
    (compile : String → Option (String → Bool)) (s : String) :
    ((findShape s).isSome = !(s.data.contains '\n'))
    ∧ (s.data.contains '\n' = true →
        FilterSet.parse compile s = .error .shapeMismatchCaptures)
    ∧ (s.data.contains '\n' = false →
        ∀ e, FilterSet.parse compile s = .error e → e = .invalidRegex) := by
  refine ⟨?_, ?_, ?_⟩
  · by_cases h : s.data.contains '\n' = true
    · rw [h, findShape, if_pos h]
      rfl
    · have h2 : s.data.contains '\n' = false := Bool.eq_false_iff.mpr h
      rw [h2, findShape, if_neg (by rw [h2]; exact Bool.false_ne_true)]
      cases shapeGroup s.data with
      | none => rfl
      | some p => obtain ⟨k, bang, rest⟩ := p; rfl
  · intro h
    rw [FilterSet.parse, findShape, if_pos h]
  · intro hnl e hp
    rw [FilterSet.parse, findShape, if_neg (by rw [hnl]; exact Bool.false_ne_true)] at hp
    cases hsg : shapeGroup s.data with
    | none =>
      rw [hsg] at hp
      simp only [Option.getD] at hp
      cases hc : compile s with
      | none =>
        rw [hc] at hp
        injection hp with he
        exact he.symm
      | some matcher =>
        rw [hc] at hp
        exact Except.noConfusion hp
    | some p =>
      obtain ⟨k, bang, rest⟩ := p
      rw [hsg] at hp
      dsimp only at hp
      cases hc : compile ⟨rest⟩ with
      | none =>
        rw [hc] at hp
        injection hp with he
        exact he.symm
      | some matcher =>
        rw [hc] at hp
        exact Except.noConfusion hp

/-- Witness for C10's amended claim at a concrete newline-free input: the
shape regex matches `%level!=DEBUG`, and with a `compile` that rejects every
body, `parse` still does not hit the shape-mismatch branch. -/
theorem c10_amended_parse_fails_only_on_bad_regex_witness :
    (findShape "%level!=DEBUG").isSome = true
    ∧ FilterSet.parse (fun _ => none) "%level!=DEBUG"
        ≠ .error .shapeMismatchCaptures := by
  constructor
  · have h := (c10_amended_parse_fails_only_on_bad_regex (fun _ => none)
      "%level!=DEBUG").1
    rw [h]
    decide
  · intro hcontr
    have h := (c10_amended_parse_fails_only_on_bad_regex (fun _ => none)
      "%level!=DEBUG").2.2 (by decide) _ hcontr
    exact absurd h (by decide)

end Saw
